import Mathlib

/-!
Verification development for the document-to-Marqo ingestion pipeline and the
Marqo vector-store adaptation layer of this repository.

Texts are modelled as `List Char` and file contents as `List Nat` (bytes).
Python string primitives (slicing with clamping of negative indices,
`str.rfind` over a range, `str.strip`) are embedded first, then the chunking
algorithm shared by `scripts/load_documents_to_marqo.py` (fallback branch of
`chunk_text`) and `scripts/load_obsidian_to_marqo.py` (`chunk_text`), which
are textually identical.
-/

/-- Python index normalisation for slice bounds: a negative index counts from
the end of the sequence (clamped at 0), a non-negative index is clamped to the
length. -/
def pyBound (n : Nat) (i : Int) : Nat :=
  if i < 0 then (n + i).toNat else min i.toNat n

/-- Python slice `s[a:b]` over a list of characters. -/
def pySlice (s : List Char) (a b : Int) : List Char :=
  (s.take (pyBound s.length b)).drop (pyBound s.length a)

/-- Whitespace in the sense of Python `str.strip`. -/
def isPySpace (c : Char) : Bool :=
  c = ' ' || c = '\t' || c = '\n' || c = '\r' || c = '\x0b' || c = '\x0c'

/-- Python `str.strip()`: drop leading and trailing whitespace. -/
def pystrip (s : List Char) : List Char :=
  ((s.dropWhile isPySpace).reverse.dropWhile isPySpace).reverse

/-- Does `pat` occur in `s` starting at index `i`? -/
def matchesAt (s pat : List Char) (i : Nat) : Bool :=
  decide ((s.drop i).take pat.length = pat)

/-- Search downward from index `i` to index `lo` for an occurrence of `pat`. -/
def rfindDown (s pat : List Char) (lo : Nat) : Nat → Option Nat
  | 0 => if lo ≤ 0 ∧ matchesAt s pat 0 = true then some 0 else none
  | i + 1 =>
    if lo ≤ i + 1 ∧ matchesAt s pat (i + 1) = true then some (i + 1)
    else rfindDown s pat lo i

/-- Python `s.rfind(pat, a, b)`: the largest index of an occurrence of `pat`
that lies fully inside the (normalised) range `[a, b)`, if any. -/
def pyRfind (s pat : List Char) (a b : Int) : Option Nat :=
  let lo := pyBound s.length a
  let hi := pyBound s.length b
  if pat.length ≤ hi then rfindDown s pat lo (hi - pat.length) else none

/-- The paragraph-break pattern of `chunk_text`. -/
def pbPat : List Char := ['\n', '\n']

/-- The sentence-break pattern of `chunk_text`. -/
def sbPat : List Char := ['.', ' ']

/-- The space-break pattern of `chunk_text`. -/
def spPat : List Char := [' ']

/-- Innermost fallback of the boundary search in `chunk_text`: break at the
last space after the window midpoint, if any, else keep the raw window end. -/
def spaceAdjust (text : List Char) (cs : Nat) (start end0 : Int) : Int :=
  match pyRfind text spPat start end0 with
  | some p => if start + ((cs / 2 : Nat) : Int) < (p : Int) then (p : Int) else end0
  | none => end0

/-- Second fallback of the boundary search in `chunk_text`: break just after
the last sentence break after the window midpoint (keeping the period), else
fall back to a space break. -/
def sentenceAdjust (text : List Char) (cs : Nat) (start end0 : Int) : Int :=
  match pyRfind text sbPat start end0 with
  | some p =>
    if start + ((cs / 2 : Nat) : Int) < (p : Int) then (p : Int) + 1
    else spaceAdjust text cs start end0
  | none => spaceAdjust text cs start end0

/-- The boundary adjustment of `chunk_text`: prefer the last paragraph break
after the window midpoint, then a sentence break, then a space. -/
def adjustEnd (text : List Char) (cs : Nat) (start end0 : Int) : Int :=
  match pyRfind text pbPat start end0 with
  | some p =>
    if start + ((cs / 2 : Nat) : Int) < (p : Int) then (p : Int)
    else sentenceAdjust text cs start end0
  | none => sentenceAdjust text cs start end0

/-- The adjusted end of the window starting at `start`
(`end` in the Python loop body after the `if end < len(text)` block). -/
def chunkEnd (text : List Char) (cs : Nat) (start : Int) : Int :=
  let end0 : Int := start + (cs : Int)
  if end0 < (text.length : Int) then adjustEnd text cs start end0 else end0

/-- The value of `start` after one iteration of the `chunk_text` loop:
`end - chunk_overlap` if the adjusted end is before the end of the text,
else `len(text)`. -/
def nextStart (text : List Char) (cs co : Nat) (start : Int) : Int :=
  let e := chunkEnd text cs start
  if e < (text.length : Int) then e - (co : Int) else (text.length : Int)

/-- The raw (unstripped) slice `text[start:end]` appended in one iteration of
the `chunk_text` loop. -/
def chunkSlice (text : List Char) (cs : Nat) (start : Int) : List Char :=
  pySlice text start (chunkEnd text cs start)

/-- The `while start < len(text)` loop of `chunk_text`, fuel-bounded: `none`
means the loop did not finish within `fuel` iterations. -/
def chunkLoop (text : List Char) (cs co : Nat) : Nat → Int → Option (List (List Char))
  | 0, _ => none
  | fuel + 1, start =>
    if start < (text.length : Int) then
      (chunkLoop text cs co fuel (nextStart text cs co start)).map
        (fun rest => pystrip (chunkSlice text cs start) :: rest)
    else some []

/-- The same loop without the final `.strip()` on each appended slice. -/
def rawLoop (text : List Char) (cs co : Nat) : Nat → Int → Option (List (List Char))
  | 0, _ => none
  | fuel + 1, start =>
    if start < (text.length : Int) then
      (rawLoop text cs co fuel (nextStart text cs co start)).map
        (fun rest => chunkSlice text cs start :: rest)
    else some []

/-- `chunk_text(text, chunk_size, chunk_overlap)` (fallback branch of the
documents script, identical to the obsidian script version): a single chunk
for short texts, otherwise the boundary-searching loop. -/
def chunk_text (text : List Char) (cs co : Nat) : Option (List (List Char)) :=
  if text.length ≤ cs then some [text]
  else chunkLoop text cs co (text.length + 2) 0

/-- `chunk_text` with the per-chunk `.strip()` omitted: the raw window
slices. -/
def chunkRaw (text : List Char) (cs co : Nat) : Option (List (List Char)) :=
  if text.length ≤ cs then some [text]
  else rawLoop text cs co (text.length + 2) 0

/-- Concatenation of the tail chunks with the leading overlap region of each
removed. -/
def joinTail (co : Nat) (l : List (List Char)) : List Char :=
  (l.map (List.drop co)).flatten

/-- Concatenation of a chunk list in index order, removing the leading
overlap region of every chunk after the first. -/
def overlapJoin (co : Nat) : List (List Char) → List Char
  | [] => []
  | c :: rest => c ++ joinTail co rest

/-!
SHA-256, embedding `hashlib.sha256` as used by `calculate_file_hash` in
`scripts/load_documents_to_marqo.py`.
-/

/-- Truncate to a 32-bit word. -/
def w32 (x : Nat) : Nat := x % 4294967296

/-- 32-bit right rotation. -/
def shaRotr (n x : Nat) : Nat := (x >>> n) ||| w32 (x <<< (32 - n))

/-- SHA-256 big sigma 0. -/
def shaBSig0 (x : Nat) : Nat := shaRotr 2 x ^^^ shaRotr 13 x ^^^ shaRotr 22 x

/-- SHA-256 big sigma 1. -/
def shaBSig1 (x : Nat) : Nat := shaRotr 6 x ^^^ shaRotr 11 x ^^^ shaRotr 25 x

/-- SHA-256 small sigma 0. -/
def shaSSig0 (x : Nat) : Nat := shaRotr 7 x ^^^ shaRotr 18 x ^^^ (x >>> 3)

/-- SHA-256 small sigma 1. -/
def shaSSig1 (x : Nat) : Nat := shaRotr 17 x ^^^ shaRotr 19 x ^^^ (x >>> 10)

/-- SHA-256 choice function. -/
def shaCh (x y z : Nat) : Nat := (x &&& y) ^^^ ((x ^^^ 4294967295) &&& z)

/-- SHA-256 majority function. -/
def shaMaj (x y z : Nat) : Nat := (x &&& y) ^^^ (x &&& z) ^^^ (y &&& z)

/-- SHA-256 round constants. -/
def shaK : List Nat :=
  [1116352408, 1899447441, 3049323471, 3921009573, 961987163,
   1508970993, 2453635748, 2870763221, 3624381080, 310598401,
   607225278, 1426881987, 1925078388, 2162078206, 2614888103,
   3248222580, 3835390401, 4022224774, 264347078, 604807628,
   770255983, 1249150122, 1555081692, 1996064986, 2554220882,
   2821834349, 2952996808, 3210313671, 3336571891, 3584528711,
   113926993, 338241895, 666307205, 773529912, 1294757372,
   1396182291, 1695183700, 1986661051, 2177026350, 2456956037,
   2730485921, 2820302411, 3259730800, 3345764771, 3516065817,
   3600352804, 4094571909, 275423344, 430227734, 506948616,
   659060556, 883997877, 958139571, 1322822218, 1537002063,
   1747873779, 1955562222, 2024104815, 2227730452, 2361852424,
   2428436474, 2756734187, 3204031479, 3329325298]

/-- SHA-256 initial hash state. -/
def shaH0 : List Nat :=
  [1779033703, 3144134277, 1013904242, 2773480762,
   1359893119, 2600822924, 528734635, 1541459225]

/-- Big-endian byte encoding of `v` on `n` bytes. -/
def beBytes : Nat → Nat → List Nat
  | 0, _ => []
  | n + 1, v => beBytes n (v / 256) ++ [v % 256]

/-- SHA-256 message padding. -/
def sha256pad (msg : List Nat) : List Nat :=
  let L := msg.length
  let k := (64 + 55 - L % 64) % 64
  msg ++ [0x80] ++ List.replicate k 0 ++ beBytes 8 (8 * L)

/-- Group a byte list into big-endian 32-bit words. -/
def toWords : List Nat → List Nat
  | a :: b :: c :: d :: rest => (((a * 256 + b) * 256 + c) * 256 + d) :: toWords rest
  | _ => []

/-- The 16-word blocks of a padded message. -/
def shaBlocks (padded : List Nat) : List (List Nat) :=
  (List.range (padded.length / 64)).map (fun i => toWords ((padded.drop (64 * i)).take 64))

/-- Extend a 16-word block into the 64-word message schedule. -/
def shaSchedule (w16 : List Nat) : List Nat :=
  (List.range 48).foldl
    (fun acc _ =>
      acc ++ [w32 (shaSSig1 (acc.getD (acc.length - 2) 0) + acc.getD (acc.length - 7) 0 +
                   shaSSig0 (acc.getD (acc.length - 15) 0) + acc.getD (acc.length - 16) 0)])
    w16

/-- One SHA-256 compression round on the 8-word working state. -/
def shaRound (st : List Nat) (k w : Nat) : List Nat :=
  let a := st.getD 0 0
  let b := st.getD 1 0
  let c := st.getD 2 0
  let d := st.getD 3 0
  let e := st.getD 4 0
  let f := st.getD 5 0
  let g := st.getD 6 0
  let h := st.getD 7 0
  let t1 := w32 (h + shaBSig1 e + shaCh e f g + k + w)
  let t2 := w32 (shaBSig0 a + shaMaj a b c)
  [w32 (t1 + t2), a, b, c, w32 (d + t1), e, f, g]

/-- SHA-256 compression of one block into the hash state. -/
def shaCompress (hs : List Nat) (block : List Nat) : List Nat :=
  let ws := shaSchedule block
  let st := (List.zip shaK ws).foldl (fun st kw => shaRound st kw.1 kw.2) hs
  List.zipWith (fun x y => w32 (x + y)) hs st

/-- SHA-256 of a byte list, as the 8-word final state. -/
def sha256 (msg : List Nat) : List Nat :=
  (shaBlocks (sha256pad msg)).foldl shaCompress shaH0

/-- Lower-case hex digit. -/
def hexDigit (n : Nat) : Char :=
  if n < 10 then Char.ofNat (48 + n) else Char.ofNat (87 + n)

/-- Lower-case 8-digit hex rendering of a 32-bit word. -/
def wordHex (w : Nat) : List Char :=
  (List.range 8).map (fun i => hexDigit ((w >>> (4 * (7 - i))) % 16))

/-- `hashlib.sha256(msg).hexdigest()`. -/
def sha256hex (msg : List Nat) : String :=
  String.mk (((sha256 msg).map wordHex).flatten)

/-- The successive 64 KiB blocks handed to `hasher.update` by
`calculate_file_hash` when streaming the file. -/
def readBlocks (bytes : List Nat) : List (List Nat) :=
  (List.range ((bytes.length + 65535) / 65536)).map
    (fun i => (bytes.drop (65536 * i)).take 65536)

/-- `calculate_file_hash`: stream the file in 64 KiB blocks into a SHA-256
hasher (whose state is the accumulated byte sequence) and return the hex
digest.  The result depends only on the raw bytes of the file. -/
def calculate_file_hash (bytes : List Nat) : String :=
  sha256hex ((readBlocks bytes).foldl (fun acc buf => acc ++ buf) [])

/-!
Text extraction for plain-text extensions
(`extract_text_from_file`, `scripts/load_documents_to_marqo.py`): the file is
decoded with the encodings `utf-8`, `latin-1`, `cp1252` in order, stopping at
the first that succeeds; if all fail a warning is logged and the empty string
returned (modelled as `none`).
-/

/-- Strict UTF-8 decoding, fuel-bound by the length of the byte list (the
fuel is always sufficient because every step consumes at least one byte). -/
def utf8Go : Nat → List Nat → Option (List Char)
  | _, [] => some []
  | 0, _ :: _ => none
  | fuel + 1, b :: rest =>
    if b < 0x80 then
      (utf8Go fuel rest).map (fun t => Char.ofNat b :: t)
    else if 0xC2 ≤ b ∧ b ≤ 0xDF then
      match rest with
      | b2 :: rest2 =>
        if 0x80 ≤ b2 ∧ b2 ≤ 0xBF then
          (utf8Go fuel rest2).map (fun t => Char.ofNat ((b - 0xC0) * 64 + (b2 - 0x80)) :: t)
        else none
      | [] => none
    else if 0xE0 ≤ b ∧ b ≤ 0xEF then
      match rest with
      | b2 :: b3 :: rest3 =>
        let lo2 := if b = 0xE0 then 0xA0 else 0x80
        let hi2 := if b = 0xED then 0x9F else 0xBF
        if (lo2 ≤ b2 ∧ b2 ≤ hi2) ∧ (0x80 ≤ b3 ∧ b3 ≤ 0xBF) then
          (utf8Go fuel rest3).map
            (fun t => Char.ofNat ((b - 0xE0) * 4096 + (b2 - 0x80) * 64 + (b3 - 0x80)) :: t)
        else none
      | _ => none
    else if 0xF0 ≤ b ∧ b ≤ 0xF4 then
      match rest with
      | b2 :: b3 :: b4 :: rest4 =>
        let lo2 := if b = 0xF0 then 0x90 else 0x80
        let hi2 := if b = 0xF4 then 0x8F else 0xBF
        if (lo2 ≤ b2 ∧ b2 ≤ hi2) ∧ (0x80 ≤ b3 ∧ b3 ≤ 0xBF) ∧ (0x80 ≤ b4 ∧ b4 ≤ 0xBF) then
          (utf8Go fuel rest4).map
            (fun t => Char.ofNat ((b - 0xF0) * 262144 + (b2 - 0x80) * 4096 +
                                  (b3 - 0x80) * 64 + (b4 - 0x80)) :: t)
        else none
      | _ => none
    else none

/-- Python `bytes.decode("utf-8")`, `none` on a `UnicodeDecodeError`. -/
def utf8Decode (bytes : List Nat) : Option (List Char) :=
  utf8Go bytes.length bytes

/-- Python `bytes.decode("latin-1")`: maps every byte `b` to the code point
`b`; it succeeds on every byte sequence. -/
def latin1Decode (bytes : List Nat) : Option (List Char) :=
  if bytes.all (· < 256) then some (bytes.map Char.ofNat) else none

/-- One byte of Python `bytes.decode("cp1252")`; the bytes 0x81, 0x8D, 0x8F,
0x90 and 0x9D are unmapped and raise. -/
def cp1252Byte (b : Nat) : Option Nat :=
  if b = 0x80 then some 0x20AC
  else if b = 0x82 then some 0x201A
  else if b = 0x83 then some 0x0192
  else if b = 0x84 then some 0x201E
  else if b = 0x85 then some 0x2026
  else if b = 0x86 then some 0x2020
  else if b = 0x87 then some 0x2021
  else if b = 0x88 then some 0x02C6
  else if b = 0x89 then some 0x2030
  else if b = 0x8A then some 0x0160
  else if b = 0x8B then some 0x2039
  else if b = 0x8C then some 0x0152
  else if b = 0x8E then some 0x017D
  else if b = 0x91 then some 0x2018
  else if b = 0x92 then some 0x2019
  else if b = 0x93 then some 0x201C
  else if b = 0x94 then some 0x201D
  else if b = 0x95 then some 0x2022
  else if b = 0x96 then some 0x2013
  else if b = 0x97 then some 0x2014
  else if b = 0x98 then some 0x02DC
  else if b = 0x99 then some 0x2122
  else if b = 0x9A then some 0x0161
  else if b = 0x9B then some 0x203A
  else if b = 0x9C then some 0x0153
  else if b = 0x9E then some 0x017E
  else if b = 0x9F then some 0x0178
  else if b = 0x81 ∨ b = 0x8D ∨ b = 0x8F ∨ b = 0x90 ∨ b = 0x9D then none
  else if b < 256 then some b else none

/-- Python `bytes.decode("cp1252")`, `none` on a `UnicodeDecodeError`. -/
def cp1252Decode : List Nat → Option (List Char)
  | [] => some []
  | b :: rest =>
    match cp1252Byte b with
    | some c => (cp1252Decode rest).map (fun t => Char.ofNat c :: t)
    | none => none

/-- The plain-text branch of `extract_text_from_file`: try the encodings in
order and return the first successful decoding; `none` models the
`Could not decode` branch that returns the empty string. -/
def extract_text_plain (bytes : List Nat) : Option (List Char) :=
  match utf8Decode bytes with
  | some t => some t
  | none =>
    match latin1Decode bytes with
    | some t => some t
    | none => cp1252Decode bytes

/-- One record built by `process_file` in
`scripts/load_documents_to_marqo.py` for one chunk. -/
structure ChunkDoc where
  id : String
  text : List Char
  file_path : String
  file_name : String
  file_type : String
  chunk_index : Nat
  total_chunks : Nat
deriving DecidableEq

/-- `process_file` of `scripts/load_documents_to_marqo.py`, for a plain-text
file: hash the raw bytes, extract the text, chunk it and build one record per
chunk with identifier `f"{file_id}_chunk_{i}"`.  The outer `Option` is `none`
when the chunking loop does not terminate. -/
def process_file (relPath fileName fileType : String) (bytes : List Nat)
    (cs co : Nat) : Option (List ChunkDoc) :=
  let file_id := calculate_file_hash bytes
  let text := (extract_text_plain bytes).getD []
  if text = [] then some []
  else
    (chunk_text text cs co).map (fun chunks =>
      chunks.enum.map (fun ic =>
        { id := file_id ++ "_chunk_" ++ Nat.repr ic.1
          text := ic.2
          file_path := relPath
          file_name := fileName
          file_type := fileType
          chunk_index := ic.1
          total_chunks := chunks.length }))

/-!
Obsidian markdown pre-processing (`scripts/load_obsidian_to_marqo.py`).
The two `re.sub` patterns that rewrite the body text are
`WIKILINK_PATTERN = r"\[\[(.*?)(?:\|(.*?))?\]\]"` and
`IMAGE_PATTERN = r"!\[\[(.*?)\]\]"`; both are embedded as direct scanners
with the leftmost, non-greedy match semantics of `re.sub` (a dot does not
match a newline).
-/

/-- Scan for the earliest closing `]]`, accumulating the (newline-free)
group matched by a non-greedy dot-star; `none` when a newline or the end of
the input is reached first. -/
def scanToClose : List Char → List Char → Option (List Char × List Char)
  | ']' :: ']' :: rest, acc => some (acc, rest)
  | '\n' :: _, _ => none
  | c :: rest, acc => scanToClose rest (acc ++ [c])
  | [], _ => none

/-- Backtracking scan for the remainder of a wikilink after the opening
`[[`: the first group grows non-greedily; at a `|` the optional
`(?:\|(.*?))?` branch is tried first (its group also non-greedy up to the
earliest `]]`), and the replacement is the display title computed by
`replace_wikilink` (the second group when it is non-empty, else the link). -/
def wikiScan : List Char → List Char → Option (List Char × List Char)
  | '|' :: rest, acc =>
    (match scanToClose rest [] with
     | some (g2, rst) => some ((if g2 = [] then acc else g2), rst)
     | none => wikiScan rest (acc ++ ['|']))
  | ']' :: ']' :: rest, acc => some (acc, rest)
  | '\n' :: _, _ => none
  | c :: rest, acc => wikiScan rest (acc ++ [c])
  | [], _ => none

/-- Try to match `WIKILINK_PATTERN` at the head of the input, returning the
replacement text and the remaining input. -/
def matchWikiAt : List Char → Option (List Char × List Char)
  | '[' :: '[' :: rest => wikiScan rest []
  | _ => none

/-- Try to match `IMAGE_PATTERN` at the head of the input, returning the
replacement `f"[Image: {image_name}]"` of `replace_image` and the remaining
input. -/
def matchImageAt : List Char → Option (List Char × List Char)
  | '!' :: '[' :: '[' :: rest =>
    (scanToClose rest []).map (fun gr => ("[Image: ".toList ++ gr.1 ++ [']'], gr.2))
  | _ => none

/-- `re.sub` over a list of characters: scan left to right, replacing each
leftmost match and continuing after it.  Fuel-bounded; a fuel of the input
length suffices because every step consumes at least one character. -/
def reSub (matcher : List Char → Option (List Char × List Char)) :
    Nat → List Char → List Char
  | _, [] => []
  | 0, s => s
  | fuel + 1, c :: rest =>
    match matcher (c :: rest) with
    | some (repl, rst) => repl ++ reSub matcher fuel rst
    | none => c :: reSub matcher fuel rest

/-- `process_wikilinks`: replace every `[[link]]` or `[[link|title]]` with
its display text (`vault_path` is unused by the source function as well). -/
def process_wikilinks (content : List Char) (_vaultPath : String) : List Char :=
  reSub matchWikiAt (content.length + 1) content

/-- `process_images`: replace every `![[image]]` with `[Image: image]`. -/
def process_images (content : List Char) : List Char :=
  reSub matchImageAt (content.length + 1) content

/-- `process_code_blocks`: the source returns the content unchanged. -/
def process_code_blocks (content : List Char) : List Char := content

/-- Scan for the first `\n---` closing a frontmatter block (the group of
`FRONTMATTER_PATTERN` is matched with `re.DOTALL`, so newlines are allowed
inside it); returns the text after the closing marker. -/
def findFmClose : List Char → Option (List Char)
  | '\n' :: '-' :: '-' :: '-' :: rest => some rest
  | _ :: rest => findFmClose rest
  | [] => none

/-- The body component of `extract_frontmatter`: when the content starts
with a `---` frontmatter block that is properly closed, the block is removed
and the rest stripped; otherwise the content is returned unchanged.  (The
key-value frontmatter mapping itself is metadata and does not affect the
body.) -/
def extract_frontmatter_body (content : List Char) : List Char :=
  match content with
  | '-' :: '-' :: '-' :: '\n' :: rest =>
    (match findFmClose rest with
     | some after => pystrip after
     | none => content)
  | _ => content

/-- The body component of `extract_tags`: tags are collected but the
substitution that would remove them from the body is commented out in the
source, so the content is returned unchanged. -/
def extract_tags_content (content : List Char) : List Char := content

/-- The text-rewriting pipeline applied by `process_file` of
`scripts/load_obsidian_to_marqo.py` before chunking, in source order:
frontmatter, then tags, then wikilinks, then images, then code blocks. -/
def obsProcessContent (vaultPath : String) (content : List Char) : List Char :=
  process_code_blocks (process_images
    (process_wikilinks (extract_tags_content (extract_frontmatter_body content)) vaultPath))

/-!
Marqo vector-store layer
(`backend/open_webui/retrieval/vector/dbs/marqo.py` and
`backend/open_webui/vectordb/marqo_loader.py`).  The marqo SDK is an
external collaborator and is modelled as a `Backend` record of call shapes,
each of which either returns a value or raises (`Except.error`).  Scores are
modelled as integers (their arithmetic content is only the conversion
`distance = 1 - score`).
-/

/-- One search hit returned by the backend: the reserved fields plus the
remaining metadata fields of the document. -/
structure Hit where
  id : String
  score : Int
  text : String
  extra : List (String × String)
deriving DecidableEq

/-- The marqo SDK call shapes used by the repository. -/
structure Backend where
  getStats : String → Except String Unit
  createIndex : String → Except String Unit
  deleteIndex : String → Except String Unit
  addDocuments : String → List (List (String × String)) → Except String Unit
  deleteDocuments : String → List String → Except String Unit
  searchText : String → String → Option (List (String × String)) → Nat → Except String (List Hit)
  searchByDoc : String → String → String → Nat → Except String (List Hit)
  searchLexical : String → Option (List (String × (String × String))) → Nat → Except String (List Hit)

/-- The metadata extracted from a hit: every field whose key is not one of
the reserved keys `text`, `_id`, `_score`, `_highlights`. -/
def metadataOf (h : Hit) : List (String × String) :=
  h.extra.filter (fun kv => !(["text", "_id", "_score", "_highlights"].contains kv.1))

/-- The per-query result lists built by `MarqoClient.search` for one query
vector: ids, distances (`1.0 - score`), documents, metadatas. -/
structure QueryRes where
  ids : List String
  distances : List Int
  documents : List String
  metadatas : List (List (String × String))
deriving DecidableEq

/-- Build the per-query result lists from the hits of one search. -/
def mkQueryRes (hits : List Hit) : QueryRes :=
  ⟨hits.map (·.id), hits.map (fun h => 1 - h.score), hits.map (·.text), hits.map metadataOf⟩

/-- `SearchResult` of `open_webui.retrieval.vector.main`. -/
structure SearchResult where
  ids : List (List String)
  distances : List (List Int)
  documents : List (List String)
  metadatas : List (List (List (String × String)))
deriving DecidableEq

/-- `GetResult` of `open_webui.retrieval.vector.main`. -/
structure GetResult where
  ids : List (List String)
  documents : List (List String)
  metadatas : List (List (List (String × String)))
deriving DecidableEq

/-- Assemble the accumulated per-query lists into a `SearchResult`. -/
def toSearchResult (qs : List QueryRes) : SearchResult :=
  ⟨qs.map (·.ids), qs.map (·.distances), qs.map (·.documents), qs.map (·.metadatas)⟩

deriving instance DecidableEq for Except

/-- Backend calls made while processing one query vector, in order. -/
inductive MEvent where
  | create (n : String)
  | add (n : String)
  | searchT (n : String)
  | searchD (n : String)
  | delete (n : String) (r : Except String Unit)
deriving DecidableEq

/-- `MarqoClient.has_collection`: probe `get_stats` and translate any raised
exception into `false`. -/
def has_collection (b : Backend) (n : String) : Bool :=
  match b.getStats n with
  | .ok _ => true
  | .error _ => false

/-- `MarqoClient.create_collection`: logs and re-raises on failure. -/
def create_collection (b : Backend) (n : String) : Except String Unit :=
  b.createIndex n

/-- `MarqoClient.delete_collection`: logs and re-raises on failure. -/
def delete_collection (b : Backend) (n : String) : Except String Unit :=
  b.deleteIndex n

/-- Convert one `MarqoClient.insert` item `(text, metadata, id?)` to the
document sent to the backend. -/
def itemToDoc (item : String × List (String × String) × Option String) :
    List (String × String) :=
  [("text", item.1)] ++ item.2.1 ++
    (match item.2.2 with | some i => [("_id", i)] | none => [])

/-- `MarqoClient.insert`: build the documents and add them; logs and
re-raises on failure. -/
def marqo_insert (b : Backend) (col : String)
    (items : List (String × List (String × String) × Option String)) :
    Except String Unit :=
  b.addDocuments col (items.map itemToDoc)

/-- `MarqoClient.delete`: delete by ids; logs and re-raises on failure. -/
def marqo_delete (b : Backend) (col : String) (ids : List String) :
    Except String Unit :=
  b.deleteDocuments col ids

/-- The body of the per-vector `try` block in `MarqoClient.search` (steps:
create the proxy collection, add the throwaway document, search it for the
backend-assigned id, then search the target collection by document
reference), together with the trace of backend calls it makes. -/
def msearchBody (b : Backend) (col tmp : String) (limit : Option Nat) :
    Except String QueryRes × List MEvent :=
  match b.createIndex tmp with
  | .error e => (.error e, [.create tmp])
  | .ok _ =>
    match b.addDocuments tmp [[("text", "query_document")]] with
    | .error e => (.error e, [.create tmp, .add tmp])
    | .ok _ =>
      match b.searchText tmp "query_document" none 1 with
      | .error e => (.error e, [.create tmp, .add tmp, .searchT tmp])
      | .ok hits1 =>
        match hits1 with
        | [] => (.error "IndexError", [.create tmp, .add tmp, .searchT tmp])
        | h :: _ =>
          match b.searchByDoc col tmp h.id (limit.getD 10) with
          | .error e => (.error e, [.create tmp, .add tmp, .searchT tmp, .searchD col])
          | .ok hits2 => (.ok (mkQueryRes hits2), [.create tmp, .add tmp, .searchT tmp, .searchD col])

/-- One iteration of the per-vector loop of `MarqoClient.search`: the body
runs under a `finally` that always deletes the proxy collection, swallowing
(only logging) a deletion failure; the value of the iteration is the body
outcome, the trace additionally records the deletion and its result. -/
def processVector (b : Backend) (col tmp : String) (limit : Option Nat) :
    Except String QueryRes × List MEvent :=
  let r := msearchBody b col tmp limit
  (r.1, r.2 ++ [.delete tmp (b.deleteIndex tmp)])

/-- The `for query_vector in vectors` loop of `MarqoClient.search`: the
first exception raised by an iteration propagates, ending the loop. -/
def searchLoop (b : Backend) (col : String) (limit : Option Nat)
    (tmpName : Nat → String) : Nat → List (List Int) →
    Except String (List QueryRes) × List MEvent
  | _, [] => (.ok [], [])
  | k, _v :: vs =>
    let pr := processVector b col (tmpName k) limit
    match pr.1 with
    | .error e => (.error e, pr.2)
    | .ok q =>
      let rest := searchLoop b col limit tmpName (k + 1) vs
      match rest.1 with
      | .ok qs => (.ok (q :: qs), pr.2 ++ rest.2)
      | .error e => (.error e, pr.2 ++ rest.2)

/-- `MarqoClient.search`: `None` for an empty vector list; otherwise run the
loop under the outer `try`, so that any exception yields `None`.  `tmpName`
supplies the random proxy-collection names `f"temp_query_{uuid4()[:8]}"`. -/
def msearch (b : Backend) (col : String) (vectors : List (List Int))
    (limit : Option Nat) (tmpName : Nat → String) :
    Option SearchResult × List MEvent :=
  match vectors with
  | [] => (none, [])
  | _ =>
    let res := searchLoop b col limit tmpName 0 vectors
    match res.1 with
    | .ok qs => (some (toSearchResult qs), res.2)
    | .error _ => (none, res.2)

/-- The filter translation of `MarqoClient.query`:
`{key: value}` becomes `{key: {"$eq": value}}`. -/
def toMarqoFilter (f : List (String × String)) : List (String × (String × String)) :=
  f.map (fun kv => (kv.1, ("$eq", kv.2)))

/-- `MarqoClient.query`: `None` for a missing collection, on any raised
exception, and when there are no hits. -/
def marqo_query (b : Backend) (col : String) (filter : List (String × String))
    (limit : Option Nat) : Option GetResult :=
  if has_collection b col = false then none
  else
    match b.searchLexical col (some (toMarqoFilter filter)) (limit.getD 10) with
    | .error _ => none
    | .ok hits =>
      let ids := hits.map (·.id)
      if ids.isEmpty then none
      else some ⟨[ids], [hits.map (·.text)], [hits.map metadataOf]⟩

/-- `MarqoClient.get`: `None` for a missing collection, on any raised
exception, and when there are no hits. -/
def marqo_get (b : Backend) (col : String) (limit : Option Nat) : Option GetResult :=
  if has_collection b col = false then none
  else
    match b.searchLexical col none (limit.getD 10) with
    | .error _ => none
    | .ok hits =>
      let ids := hits.map (·.id)
      if ids.isEmpty then none
      else some ⟨[ids], [hits.map (·.text)], [hits.map metadataOf]⟩

/-- `MarqoLoader.search` of `backend/open_webui/vectordb/marqo_loader.py`:
search the collection with a text query and convert hits to documents with
scores; on a raised exception it logs and RE-RAISES (it does not degrade to
an empty result). -/
def loader_search (b : Backend) (col q : String) (limit : Nat)
    (filter : Option (List (String × String))) :
    Except String (List (String × List (String × String) × Int)) :=
  match b.searchText col q filter limit with
  | .error e => .error e
  | .ok hits => .ok (hits.map (fun h => (h.text, metadataOf h ++ [("_id", h.id)], h.score)))

/-!
Concrete fixtures used by witnesses and counterexamples.
-/

/-- Input text exhibiting the non-terminating chunking loop: with
`chunk_size = 10` and `chunk_overlap = 8` the paragraph break at index 6 is
past the window midpoint 5, so the first window ends at 6 and the next start
is `6 - 8 = -2`. -/
def cycleText : List Char := "abcdef\n\nghijklmn".toList

/-- Witness text for the boundary-priority theorem: in the window `[0, 9)`
the paragraph break at index 7 is past the midpoint 4, and a space break at
index 5 is also present. -/
def boundaryText : List Char := "ab cd e\n\nf ghij".toList

/-- Proxy-collection names used by the search fixtures. -/
def tmpNames (k : Nat) : String := "t" ++ Nat.repr k

/-- A backend on which creating the proxy collection `t0` raises while
every other call succeeds; used to exhibit the abort-all behaviour of
`MarqoClient.search`. -/
def c6backend : Backend where
  getStats := fun _ => .ok ()
  createIndex := fun n => if n = "t0" then .error "create failed" else .ok ()
  deleteIndex := fun _ => .ok ()
  addDocuments := fun _ _ => .ok ()
  deleteDocuments := fun _ _ => .ok ()
  searchText := fun _ _ _ _ => .ok [⟨"qid", 1, "query_document", []⟩]
  searchByDoc := fun _ _ _ _ => .ok [⟨"doc1", 1, "hello", []⟩]
  searchLexical := fun _ _ _ => .ok []

/-- A backend on which every call raises. -/
def c8backend : Backend where
  getStats := fun _ => .error "boom"
  createIndex := fun _ => .error "boom"
  deleteIndex := fun _ => .error "boom"
  addDocuments := fun _ _ => .error "boom"
  deleteDocuments := fun _ _ => .error "boom"
  searchText := fun _ _ _ _ => .error "boom"
  searchByDoc := fun _ _ _ _ => .error "boom"
  searchLexical := fun _ _ _ => .error "boom"

/-- The records produced by `process_file` for a two-byte plain-text file
containing `hi`. -/
def c1docs : List ChunkDoc :=
  (process_file "p" "n" ".txt" [104, 105] 10 0).getD []

/-- Occurrence of the break pattern `pat` inside the window
`[start, start + cs)` strictly after the window midpoint
`start + cs // 2`. -/
def occWin (text pat : List Char) (cs : Nat) (start : Int) (p : Nat) : Prop :=
  matchesAt text pat p = true ∧ start + ((cs / 2 : Nat) : Int) < (p : Int) ∧
    (p : Int) + (pat.length : Int) ≤ start + (cs : Int)

instance (text pat : List Char) (cs : Nat) (start : Int) (p : Nat) :
    Decidable (occWin text pat cs start p) := by
  unfold occWin
  infer_instance

/-!
Helper lemmas: the search primitives.
-/

theorem rfindDown_some {s pat : List Char} {lo : Nat} :
    ∀ {i p : Nat}, rfindDown s pat lo i = some p →
      lo ≤ p ∧ p ≤ i ∧ matchesAt s pat p = true := by
  intro i
  induction i with
  | zero =>
    intro p h
    unfold rfindDown at h
    split at h
    · rename_i hc
      cases h
      exact ⟨hc.1, Nat.le_refl 0, hc.2⟩
    · cases h
  | succ i ih =>
    intro p h
    unfold rfindDown at h
    split at h
    · rename_i hc
      cases h
      exact ⟨hc.1, Nat.le_refl _, hc.2⟩
    · obtain ⟨h1, h2, h3⟩ := ih h
      exact ⟨h1, Nat.le_succ_of_le h2, h3⟩

theorem rfindDown_max {s pat : List Char} {lo : Nat} :
    ∀ {i p : Nat}, rfindDown s pat lo i = some p →
      ∀ q, lo ≤ q → q ≤ i → matchesAt s pat q = true → q ≤ p := by
  intro i
  induction i with
  | zero =>
    intro p h q _ hq2 _
    omega
  | succ i ih =>
    intro p h q hq1 hq2 hq3
    unfold rfindDown at h
    split at h
    · cases h; exact hq2
    · rename_i hc
      rcases Nat.lt_or_ge q (i + 1) with hlt | hge
      · exact ih h q hq1 (Nat.lt_succ_iff.mp hlt) hq3
      · exfalso
        have hq : q = i + 1 := by omega
        subst hq
        exact hc ⟨hq1, hq3⟩

theorem rfindDown_none {s pat : List Char} {lo : Nat} :
    ∀ {i : Nat}, rfindDown s pat lo i = none →
      ∀ q, lo ≤ q → q ≤ i → matchesAt s pat q = false := by
  intro i
  induction i with
  | zero =>
    intro h q hq1 hq2
    unfold rfindDown at h
    split at h
    · cases h
    · rename_i hc
      have : q = 0 := by omega
      subst this
      by_contra hm
      exact hc ⟨hq1, by simpa using hm⟩
  | succ i ih =>
    intro h q hq1 hq2
    unfold rfindDown at h
    split at h
    · cases h
    · rename_i hc
      rcases Nat.lt_or_ge q (i + 1) with hlt | hge
      · exact ih h q hq1 (Nat.lt_succ_iff.mp hlt)
      · have : q = i + 1 := by omega
        subst this
        by_contra hm
        exact hc ⟨hq1, by simpa using hm⟩

theorem pyRfind_some {s pat : List Char} {a b : Int} {p : Nat}
    (h : pyRfind s pat a b = some p) :
    pyBound s.length a ≤ p ∧ p + pat.length ≤ pyBound s.length b ∧
      matchesAt s pat p = true := by
  simp only [pyRfind] at h
  split at h
  · rename_i hl
    obtain ⟨h1, h2, h3⟩ := rfindDown_some h
    exact ⟨h1, by omega, h3⟩
  · cases h

theorem pyRfind_max {s pat : List Char} {a b : Int} {p : Nat}
    (h : pyRfind s pat a b = some p) :
    ∀ q, pyBound s.length a ≤ q → q + pat.length ≤ pyBound s.length b →
      matchesAt s pat q = true → q ≤ p := by
  intro q hq1 hq2 hq3
  simp only [pyRfind] at h
  split at h
  · exact rfindDown_max h q hq1 (by omega) hq3
  · cases h

theorem pyRfind_none {s pat : List Char} {a b : Int}
    (h : pyRfind s pat a b = none) :
    ∀ q, pyBound s.length a ≤ q → q + pat.length ≤ pyBound s.length b →
      matchesAt s pat q = false := by
  intro q hq1 hq2
  simp only [pyRfind] at h
  split at h
  · exact rfindDown_none h q hq1 (by omega)
  · rename_i hl
    omega

/-!
Helper lemmas: slicing.
-/

theorem pyBound_le_length (n : Nat) (i : Int) : pyBound n i ≤ n := by
  unfold pyBound
  split <;> omega

theorem pyBound_nonneg {n : Nat} {i : Int} (h0 : 0 ≤ i) :
    pyBound n i = min i.toNat n := by
  unfold pyBound
  split <;> omega

theorem pyBound_of_le {n : Nat} {i : Int} (h0 : 0 ≤ i) (h1 : i ≤ n) :
    (pyBound n i : Int) = i := by
  rw [pyBound_nonneg h0]
  omega

theorem pyBound_of_ge {n : Nat} {i : Int} (h1 : (n : Int) ≤ i) :
    pyBound n i = n := by
  rw [pyBound_nonneg (by omega)]
  omega

theorem pyBound_mono {n : Nat} {a b : Int} (h0 : 0 ≤ a) (hab : a ≤ b) :
    pyBound n a ≤ pyBound n b := by
  rw [pyBound_nonneg h0, pyBound_nonneg (by omega)]
  omega

theorem drop_take_append {α : Type} (l : List α) {a b c : Nat}
    (hab : a ≤ b) (hbc : b ≤ c) :
    (l.take b).drop a ++ (l.take c).drop b = (l.take c).drop a := by
  have h1 : l.take b = (l.take c).take b := by
    rw [List.take_take, Nat.min_eq_left hbc]
  have h2 : (l.take c).drop b = ((l.take c).drop a).drop (b - a) := by
    rw [List.drop_drop]
    congr 1
    omega
  rw [h1, List.drop_take, h2, List.take_append_drop]

theorem pySlice_nil {s : List Char} {a b : Int}
    (h : pyBound s.length b ≤ pyBound s.length a) : pySlice s a b = [] := by
  unfold pySlice
  apply List.drop_eq_nil_of_le
  calc (s.take (pyBound s.length b)).length ≤ pyBound s.length b := by
        simp [List.length_take]
    _ ≤ pyBound s.length a := h

theorem pySlice_clamp {s : List Char} {a b : Int} (h : (s.length : Int) ≤ b) :
    pySlice s a b = pySlice s a (s.length : Int) := by
  unfold pySlice
  rw [show pyBound s.length b = s.length from pyBound_of_ge h,
      show pyBound s.length ((s.length : Nat) : Int) = s.length from pyBound_of_ge (le_refl _)]

theorem pySlice_drop {s : List Char} {a b : Int} {n : Nat} (h0 : 0 ≤ a) :
    (pySlice s a b).drop n = pySlice s (a + n) b := by
  unfold pySlice
  rw [List.drop_drop]
  by_cases hc : (a + n : Int) ≤ (s.length : Int)
  · congr 1
    rw [pyBound_nonneg h0, pyBound_nonneg (by omega : (0 : Int) ≤ a + n)]
    omega
  · push_neg at hc
    have hL : (List.take (pyBound s.length b) s).length ≤ pyBound s.length a + n := by
      rw [pyBound_nonneg h0]
      simp only [List.length_take]
      omega
    have hR : (List.take (pyBound s.length b) s).length ≤ pyBound s.length (a + n) := by
      rw [pyBound_nonneg (by omega : (0 : Int) ≤ a + n)]
      simp only [List.length_take]
      omega
    rw [List.drop_eq_nil_of_le hL, List.drop_eq_nil_of_le hR]

theorem pySlice_append {s : List Char} {a b c : Int}
    (h0 : 0 ≤ a) (hab : a ≤ b) (hbc : b ≤ c) :
    pySlice s a b ++ pySlice s b c = pySlice s a c := by
  unfold pySlice
  exact drop_take_append s (pyBound_mono h0 hab) (pyBound_mono (by omega) hbc)

theorem pySlice_zero_length (s : List Char) :
    pySlice s 0 (s.length : Int) = s := by
  unfold pySlice
  rw [pyBound_of_ge (le_refl _), pyBound_nonneg (le_refl 0)]
  simp

/-!
Helper lemmas: bounds on the adjusted window end and loop progress.
-/

theorem pyRfind_upper {s pat : List Char} {a b : Int} {p : Nat}
    (h : pyRfind s pat a b = some p) (hb : 0 ≤ b) :
    (p : Int) + pat.length ≤ b := by
  obtain ⟨-, h2, -⟩ := pyRfind_some h
  have h3 : (pyBound s.length b : Int) ≤ b := by
    rw [pyBound_nonneg hb]
    omega
  omega

theorem spaceAdjust_bounds {text : List Char} {cs : Nat} {start end0 : Int}
    (hmid : start + ((cs / 2 : Nat) : Int) + 1 ≤ end0) (hb : 0 ≤ end0) :
    start + ((cs / 2 : Nat) : Int) + 1 ≤ spaceAdjust text cs start end0 ∧
      spaceAdjust text cs start end0 ≤ end0 := by
  unfold spaceAdjust
  split
  · rename_i p hsp
    have hup := pyRfind_upper hsp hb
    simp only [spPat, List.length_cons, List.length_nil] at hup
    split
    · rename_i hacc
      constructor <;> omega
    · exact ⟨hmid, le_refl _⟩
  · exact ⟨hmid, le_refl _⟩

theorem sentenceAdjust_bounds {text : List Char} {cs : Nat} {start end0 : Int}
    (hmid : start + ((cs / 2 : Nat) : Int) + 1 ≤ end0) (hb : 0 ≤ end0) :
    start + ((cs / 2 : Nat) : Int) + 1 ≤ sentenceAdjust text cs start end0 ∧
      sentenceAdjust text cs start end0 ≤ end0 := by
  unfold sentenceAdjust
  split
  · rename_i p hsb
    have hup := pyRfind_upper hsb hb
    simp only [sbPat, List.length_cons, List.length_nil] at hup
    split
    · rename_i hacc
      constructor <;> omega
    · exact spaceAdjust_bounds hmid hb
  · exact spaceAdjust_bounds hmid hb

theorem adjustEnd_bounds {text : List Char} {cs : Nat} {start end0 : Int}
    (hmid : start + ((cs / 2 : Nat) : Int) + 1 ≤ end0) (hb : 0 ≤ end0) :
    start + ((cs / 2 : Nat) : Int) + 1 ≤ adjustEnd text cs start end0 ∧
      adjustEnd text cs start end0 ≤ end0 := by
  unfold adjustEnd
  split
  · rename_i p hpb
    have hup := pyRfind_upper hpb hb
    simp only [pbPat, List.length_cons, List.length_nil] at hup
    split
    · rename_i hacc
      constructor <;> omega
    · exact sentenceAdjust_bounds hmid hb
  · exact sentenceAdjust_bounds hmid hb

theorem half_lt {cs : Nat} (hcs : 0 < cs) : cs / 2 + 1 ≤ cs := by
  have := Nat.div_lt_self hcs (by norm_num : 1 < 2)
  omega

theorem chunkEnd_bounds {text : List Char} {cs : Nat} {start : Int}
    (hcs : 0 < cs) (h0 : 0 ≤ start) :
    start + ((cs / 2 : Nat) : Int) + 1 ≤ chunkEnd text cs start ∧
      chunkEnd text cs start ≤ start + cs := by
  have hh : ((cs / 2 : Nat) : Int) + 1 ≤ (cs : Int) := by
    have := half_lt hcs
    push_cast
    omega
  simp only [chunkEnd]
  split
  · exact adjustEnd_bounds (by omega) (by omega)
  · omega

theorem nextStart_progress {text : List Char} {cs co : Nat} {start : Int}
    (hcs : 0 < cs) (hco : co ≤ cs / 2) (h0 : 0 ≤ start)
    (hs : start < (text.length : Int)) :
    start < nextStart text cs co start ∧
      nextStart text cs co start ≤ (text.length : Int) ∧
      (chunkEnd text cs start < (text.length : Int) →
        start + ((cs / 2 + 1 - co : Nat) : Int) ≤ nextStart text cs co start) := by
  obtain ⟨hlo, hhi⟩ := @chunkEnd_bounds text cs start hcs h0
  have hcast : ((cs / 2 + 1 - co : Nat) : Int) = ((cs / 2 : Nat) : Int) + 1 - co := by
    push_cast [Nat.cast_sub (by omega : co ≤ cs / 2 + 1)]
    ring
  simp only [nextStart]
  split
  · rename_i hlt
    refine ⟨by omega, by omega, fun _ => by rw [hcast]; omega⟩
  · rename_i hge
    refine ⟨by omega, by omega, fun hco2 => absurd hco2 hge⟩

theorem rawLoop_exit {text : List Char} {cs co : Nat} :
    ∀ {fuel : Nat} {start : Int}, 1 ≤ fuel → (text.length : Int) ≤ start →
      rawLoop text cs co fuel start = some [] := by
  intro fuel start hf hs
  match fuel, hf with
  | f + 1, _ => simp [rawLoop, not_lt.mpr hs]

theorem rawLoop_spec {text : List Char} {cs co : Nat}
    (hcs : 0 < cs) (hco : co ≤ cs / 2) :
    ∀ (fuel : Nat) (start : Int), 0 ≤ start → start ≤ (text.length : Int) →
      (text.length : Int) - start < fuel →
      ∃ l, rawLoop text cs co fuel start = some l ∧
        joinTail co l = pySlice text (start + co) (text.length : Int) ∧
        overlapJoin co l = pySlice text start (text.length : Int) ∧
        l.length ≤ (text.length - start.toNat) / (cs / 2 + 1 - co) + 1 := by
  intro fuel
  induction fuel with
  | zero => intro start h0 hsl hf; omega
  | succ f ih =>
    intro start h0 hsl hf
    by_cases hguard : start < (text.length : Int)
    case neg =>
      push_neg at hguard
      have hb1 : pyBound text.length ((text.length : Nat) : Int) = text.length :=
        pyBound_of_ge (le_refl _)
      refine ⟨[], by simp [rawLoop, not_lt.mpr hguard], ?_, ?_, by simp⟩
      · simp only [joinTail, List.map_nil, List.flatten_nil]
        symm
        apply pySlice_nil
        rw [hb1, pyBound_of_ge (by omega)]
      · simp only [overlapJoin]
        symm
        apply pySlice_nil
        rw [hb1, pyBound_of_ge (by omega)]
    case pos =>
      obtain ⟨hprog1, hprog2, hprog3⟩ := nextStart_progress hcs hco h0 hguard
      obtain ⟨hlo, hhi⟩ := @chunkEnd_bounds text cs start hcs h0
      have hstep : rawLoop text cs co (f + 1) start
          = (rawLoop text cs co f (nextStart text cs co start)).map
              (fun rest => chunkSlice text cs start :: rest) := by
        simp [rawLoop, hguard]
      have hcole : start + (co : Int) ≤ chunkEnd text cs start := by
        have : (co : Int) ≤ ((cs / 2 : Nat) : Int) := by exact_mod_cast hco
        omega
      by_cases he : chunkEnd text cs start < (text.length : Int)
      · -- the loop continues after this window
        have hnse : nextStart text cs co start = chunkEnd text cs start - co := by
          simp [nextStart, he]
        have hp3 := hprog3 he
        obtain ⟨rest, hr, hj1, hj2, hlen⟩ :=
          ih (nextStart text cs co start) (by omega) hprog2 (by omega)
        have harg : nextStart text cs co start + (co : Int) = chunkEnd text cs start := by
          omega
        rw [harg] at hj1
        refine ⟨chunkSlice text cs start :: rest, ?_, ?_, ?_, ?_⟩
        · rw [hstep, hr]
          rfl
        · simp only [joinTail, List.map_cons, List.flatten_cons]
          have hd : (chunkSlice text cs start).drop co
              = pySlice text (start + co) (chunkEnd text cs start) :=
            pySlice_drop h0
          rw [hd]
          show _ ++ joinTail co rest = _
          rw [hj1]
          exact pySlice_append (by omega) (by omega) (by omega)
        · simp only [overlapJoin]
          rw [hj1]
          show pySlice text start (chunkEnd text cs start) ++ _ = _
          exact pySlice_append h0 (by omega) (by omega)
        · have hp_pos : 0 < cs / 2 + 1 - co := by omega
          have hnsn : (nextStart text cs co start).toNat ≥ start.toNat + (cs / 2 + 1 - co) := by
            omega
          have hns_lt : (nextStart text cs co start).toNat < text.length := by
            omega
          simp only [List.length_cons]
          have key : (text.length - (nextStart text cs co start).toNat) / (cs / 2 + 1 - co) + 1
              ≤ (text.length - start.toNat) / (cs / 2 + 1 - co) := by
            have h1 : text.length - (nextStart text cs co start).toNat
                ≤ (text.length - start.toNat) - (cs / 2 + 1 - co) := by omega
            calc (text.length - (nextStart text cs co start).toNat) / (cs / 2 + 1 - co) + 1
                ≤ ((text.length - start.toNat) - (cs / 2 + 1 - co)) / (cs / 2 + 1 - co) + 1 := by
                  exact Nat.add_le_add_right (Nat.div_le_div_right h1) 1
              _ ≤ (text.length - start.toNat) / (cs / 2 + 1 - co) := by
                  rw [Nat.le_div_iff_mul_le hp_pos, Nat.add_mul, one_mul]
                  have h2 := Nat.div_mul_le_self
                    ((text.length - start.toNat) - (cs / 2 + 1 - co)) (cs / 2 + 1 - co)
                  omega
          omega
      · -- this window reaches the end of the text: final iteration
        push_neg at he
        have hnsl : nextStart text cs co start = (text.length : Int) := by
          simp [nextStart, not_lt.mpr he]
        have hf1 : 1 ≤ f := by omega
        have hrest : rawLoop text cs co f (nextStart text cs co start) = some [] := by
          rw [hnsl]
          exact rawLoop_exit hf1 (le_refl _)
        have hclamp : chunkSlice text cs start = pySlice text start (text.length : Int) := by
          unfold chunkSlice
          exact pySlice_clamp he
        refine ⟨[chunkSlice text cs start], ?_, ?_, ?_, ?_⟩
        · rw [hstep, hrest]
          rfl
        · simp only [joinTail, List.map_cons, List.map_nil, List.flatten_cons,
            List.flatten_nil, List.append_nil]
          have hd : (chunkSlice text cs start).drop co
              = pySlice text (start + co) (chunkEnd text cs start) :=
            pySlice_drop h0
          rw [hd]
          unfold chunkSlice at hclamp
          calc pySlice text (start + co) (chunkEnd text cs start)
              = (pySlice text start (chunkEnd text cs start)).drop co := (pySlice_drop h0).symm
            _ = (pySlice text start (text.length : Int)).drop co := by rw [hclamp]
            _ = pySlice text (start + co) (text.length : Int) := pySlice_drop h0
        · simp only [overlapJoin, joinTail, List.map_nil, List.flatten_nil, List.append_nil]
          exact hclamp
        · simp only [List.length_cons, List.length_nil]
          exact Nat.le_add_left 1 ((text.length - start.toNat) / (cs / 2 + 1 - co))

theorem chunkLoop_eq_raw {text : List Char} {cs co : Nat} :
    ∀ (fuel : Nat) (start : Int),
      chunkLoop text cs co fuel start
        = (rawLoop text cs co fuel start).map (List.map pystrip) := by
  intro fuel
  induction fuel with
  | zero => intro start; rfl
  | succ f ih =>
    intro start
    simp only [chunkLoop, rawLoop]
    split
    · rw [ih]
      cases rawLoop text cs co f (nextStart text cs co start) <;> rfl
    · rfl

/-!
Boundary-priority helper lemmas.
-/

theorem occWin_in_range {text pat : List Char} {cs : Nat} {start : Int} {p : Nat}
    (h0 : 0 ≤ start) (hw : start + (cs : Int) < (text.length : Int))
    (h : occWin text pat cs start p) :
    pyBound text.length start ≤ p ∧ p + pat.length ≤ pyBound text.length (start + cs) := by
  obtain ⟨hm, hmid, hle⟩ := h
  have e1 : (pyBound text.length start : Int) = start := pyBound_of_le h0 (by omega)
  have e2 : (pyBound text.length (start + cs) : Int) = start + cs :=
    pyBound_of_le (by omega) (by omega)
  omega

theorem rfind_occ_some {text pat : List Char} {cs : Nat} {start : Int}
    (h0 : 0 ≤ start) (hw : start + (cs : Int) < (text.length : Int))
    (hex : ∃ p, occWin text pat cs start p) :
    ∃ q, pyRfind text pat start (start + cs) = some q ∧ occWin text pat cs start q ∧
      (∀ r, occWin text pat cs start r → r ≤ q) := by
  obtain ⟨p0, hp0⟩ := hex
  obtain ⟨hr1, hr2⟩ := occWin_in_range h0 hw hp0
  rcases hq : pyRfind text pat start (start + cs) with _ | q
  · exact absurd hp0.1 (by simp [pyRfind_none hq p0 hr1 hr2])
  · obtain ⟨hq1, hq2, hq3⟩ := pyRfind_some hq
    have hmax := pyRfind_max hq
    have hqmid : start + ((cs / 2 : Nat) : Int) < (q : Int) := by
      have hh1 := hmax p0 hr1 hr2 hp0.1
      have hh2 := hp0.2.1
      omega
    have e2 : (pyBound text.length (start + cs) : Int) = start + cs :=
      pyBound_of_le (by omega) (by omega)
    refine ⟨q, rfl, ⟨hq3, hqmid, by omega⟩, ?_⟩
    intro r hr
    obtain ⟨hrr1, hrr2⟩ := occWin_in_range h0 hw hr
    exact hmax r hrr1 hrr2 hr.1

theorem rfind_occ_none {text pat : List Char} {cs : Nat} {start : Int} {p : Nat}
    (h0 : 0 ≤ start) (hw : start + (cs : Int) < (text.length : Int))
    (hnex : ¬ ∃ q, occWin text pat cs start q)
    (hp : pyRfind text pat start (start + cs) = some p) :
    ¬ (start + ((cs / 2 : Nat) : Int) < (p : Int)) := by
  intro hmid
  apply hnex
  obtain ⟨h1, h2, h3⟩ := pyRfind_some hp
  have e2 : (pyBound text.length (start + cs) : Int) = start + cs :=
    pyBound_of_le (by omega) (by omega)
  exact ⟨p, h3, hmid, by omega⟩

/-!
Claims about the chunker.
-/

/-- Claim C2, counterexample: the claim states that concatenating the chunks
returned by chunk_text in index order, after removing each leading overlap
region, yields the original text.  For the text `a b` with chunk_size 2 and
chunk_overlap 0 the chunks are `a` and `b` (each window slice is stripped of
whitespace), and their concatenation is `ab`, not `a b`. -/
theorem chunk_reconstruction_cex :
    (chunk_text "a b".toList 2 0).map (overlapJoin 0) = some "ab".toList ∧
      (chunk_text "a b".toList 2 0).map (overlapJoin 0) ≠ some "a b".toList := by
  exact ⟨by decide, by decide⟩

/-- Claim C2, amended: for `0 < chunk_size`, `chunk_overlap ≤ chunk_size / 2`
and a text longer than `chunk_size`, the UNSTRIPPED window slices of the
chunking loop reconstruct the original text exactly when concatenated in
index order with the leading overlap region of every slice after the first
removed; the chunks returned by chunk_text are exactly these slices with
leading and trailing whitespace stripped (so the claimed reconstruction holds
only up to that stripped whitespace). -/
theorem chunk_reconstruction_amended (text : List Char) (cs co : Nat)
    (hcs : 0 < cs) (hco : co ≤ cs / 2) (hlen : cs < text.length) :
    ∃ raw, chunkRaw text cs co = some raw ∧
      overlapJoin co raw = text ∧
      chunk_text text cs co = some (raw.map pystrip) := by
  obtain ⟨l, hr, hj1, hj2, hlen2⟩ :=
    @rawLoop_spec text cs co hcs hco (text.length + 2) 0 (le_refl 0)
      (by exact_mod_cast Nat.zero_le _) (by omega)
  refine ⟨l, ?_, ?_, ?_⟩
  · rw [chunkRaw, if_neg (not_le.mpr hlen)]
    exact hr
  · rw [hj2]
    exact pySlice_zero_length text
  · rw [chunk_text, if_neg (not_le.mpr hlen), chunkLoop_eq_raw, hr]
    rfl

/-- Witness for the amended claim C2 at the counterexample input: the raw
slices are `a ` and `b`, they reconstruct `a b` exactly, and the returned
chunks are their stripped forms. -/
theorem chunk_reconstruction_amended_witness :
    chunkRaw "a b".toList 2 0 = some ["a ".toList, "b".toList] ∧
      overlapJoin 0 ["a ".toList, "b".toList] = "a b".toList ∧
      chunk_text "a b".toList 2 0 = some (["a ".toList, "b".toList].map pystrip) := by
  obtain ⟨raw, h1, h2, h3⟩ :=
    chunk_reconstruction_amended "a b".toList 2 0 (by decide) (by decide) (by decide)
  have hval : chunkRaw "a b".toList 2 0 = some ["a ".toList, "b".toList] := by decide
  rw [hval] at h1
  obtain rfl : ["a ".toList, "b".toList] = raw := Option.some.inj h1
  exact ⟨hval, h2, h3⟩

/-- Claim C3, counterexample: the claim states that for a text no longer than
chunk_size the single returned chunk is the input trimmed of leading and
trailing whitespace; the code returns the input untrimmed, so on the text
` a ` (length 3, chunk_size 5) the returned chunk keeps its surrounding
whitespace. -/
theorem short_text_passthrough_cex :
    chunk_text [' ', 'a', ' '] 5 0 = some [[' ', 'a', ' ']] ∧
      chunk_text [' ', 'a', ' '] 5 0 ≠ some [pystrip [' ', 'a', ' ']] := by
  exact ⟨by decide, by decide⟩

/-- Claim C3, amended: for every text with `len(text) ≤ chunk_size`,
chunk_text returns exactly one chunk equal to the whole input text
(untrimmed). -/
theorem short_text_passthrough_amended (text : List Char) (cs co : Nat)
    (h : text.length ≤ cs) : chunk_text text cs co = some [text] := by
  rw [chunk_text, if_pos h]

/-- Witness for the amended claim C3 on a concrete short text. -/
theorem short_text_passthrough_amended_witness :
    chunk_text ['h', 'i'] 10 3 = some [['h', 'i']] :=
  short_text_passthrough_amended ['h', 'i'] 10 3 (by decide)

/-- Claim C5, counterexample: the claim states forward progress and
termination for every pair with `0 ≤ chunk_overlap < chunk_size`.  With
chunk_size 10 and chunk_overlap 8 on `abcdef\n\nghijklmn` the first window
is pulled back to the paragraph break at index 6 (past the midpoint 5), so
the next start is `6 - 8 = -2 < 0`: the loop variable DECREASES, the state
then returns to 0, and the loop cycles forever (the fuel-bounded embedding
returns `none`). -/
theorem chunk_progress_cex :
    nextStart cycleText 10 8 0 = -2 ∧ nextStart cycleText 10 8 (-2) = 0 ∧
      (0 : Int) < (cycleText.length : Int) ∧ (-2 : Int) < (cycleText.length : Int) ∧
      chunk_text cycleText 10 8 = none := by
  exact ⟨by decide, by decide, by decide, by decide, by decide⟩

/-- Claim C5, amended: when additionally `chunk_overlap ≤ chunk_size / 2`,
the loop variable strictly increases on every iteration, the loop terminates,
and the number of chunks is at most
`len(text) / (chunk_size / 2 + 1 - chunk_overlap) + 1`. -/
theorem chunk_progress_amended (text : List Char) (cs co : Nat)
    (hcs : 0 < cs) (hco : co ≤ cs / 2) :
    (∀ start : Int, 0 ≤ start → start < (text.length : Int) →
      start < nextStart text cs co start) ∧
    ∃ l, chunk_text text cs co = some l ∧
      l.length ≤ text.length / (cs / 2 + 1 - co) + 1 := by
  constructor
  · intro start h0 hs
    exact (nextStart_progress hcs hco h0 hs).1
  · by_cases hl : text.length ≤ cs
    · refine ⟨[text], by rw [chunk_text, if_pos hl], ?_⟩
      simp only [List.length_cons, List.length_nil]
      exact Nat.le_add_left 1 _
    · push_neg at hl
      obtain ⟨l, hr, -, -, hlen⟩ :=
        @rawLoop_spec text cs co hcs hco (text.length + 2) 0 (le_refl 0)
          (by exact_mod_cast Nat.zero_le _) (by omega)
      refine ⟨l.map pystrip, ?_, ?_⟩
      · rw [chunk_text, if_neg (not_le.mpr hl), chunkLoop_eq_raw, hr]
        rfl
      · simpa using hlen

/-- Witness for the amended claim C5 at a concrete input: the first step of
the loop strictly increases the start position and the loop terminates. -/
theorem chunk_progress_amended_witness :
    (0 : Int) < nextStart "a b".toList 2 0 0 ∧
      (chunk_text "a b".toList 2 0).isSome = true := by
  obtain ⟨hprog, l, hl, -⟩ :=
    chunk_progress_amended "a b".toList 2 0 (by decide) (by decide)
  exact ⟨hprog 0 (by decide) (by decide), by rw [hl]; rfl⟩

/-- Claim C4 (boundary priority), confirmed: for a window
`[start, start + chunk_size)` that does not reach the end of the text,
 1. if a paragraph break occurs in the window after its midpoint, the
    boundary is placed exactly at (the last) such paragraph break, regardless
    of any sentence break or space also present;
 2. a sentence break is used only if no such paragraph break exists, the
    boundary being placed one past the break so the period stays in the left
    chunk;
 3. a single space is used only if neither exists. -/
theorem boundary_priority (text : List Char) (cs : Nat) (start : Int)
    (h0 : 0 ≤ start) (hw : start + (cs : Int) < (text.length : Int)) :
    ((∃ p, occWin text pbPat cs start p) →
      ∃ q : Nat, chunkEnd text cs start = (q : Int) ∧ occWin text pbPat cs start q ∧
        ∀ r, occWin text pbPat cs start r → r ≤ q) ∧
    ((¬ ∃ p, occWin text pbPat cs start p) → (∃ p, occWin text sbPat cs start p) →
      ∃ q : Nat, chunkEnd text cs start = (q : Int) + 1 ∧ occWin text sbPat cs start q ∧
        ∀ r, occWin text sbPat cs start r → r ≤ q) ∧
    ((¬ ∃ p, occWin text pbPat cs start p) → (¬ ∃ p, occWin text sbPat cs start p) →
      (∃ p, occWin text spPat cs start p) →
      ∃ q : Nat, chunkEnd text cs start = (q : Int) ∧ occWin text spPat cs start q ∧
        ∀ r, occWin text spPat cs start r → r ≤ q) := by
  have hce : chunkEnd text cs start = adjustEnd text cs start (start + cs) := by
    simp [chunkEnd, hw]
  refine ⟨?_, ?_, ?_⟩
  · intro hex
    obtain ⟨q, hq, hocc, hmax⟩ := rfind_occ_some h0 hw hex
    have hadj : adjustEnd text cs start (start + cs)
        = if start + ((cs / 2 : Nat) : Int) < (q : Int) then (q : Int)
          else sentenceAdjust text cs start (start + cs) := by
      unfold adjustEnd
      rw [hq]
    exact ⟨q, by rw [hce, hadj, if_pos hocc.2.1], hocc, hmax⟩
  · intro hnpb hex
    obtain ⟨q, hq, hocc, hmax⟩ := rfind_occ_some h0 hw hex
    have hsent : sentenceAdjust text cs start (start + cs) = (q : Int) + 1 := by
      have hs : sentenceAdjust text cs start (start + cs)
          = if start + ((cs / 2 : Nat) : Int) < (q : Int) then (q : Int) + 1
            else spaceAdjust text cs start (start + cs) := by
        unfold sentenceAdjust
        rw [hq]
      rw [hs, if_pos hocc.2.1]
    have hpbe : adjustEnd text cs start (start + cs)
        = sentenceAdjust text cs start (start + cs) := by
      rcases hpb : pyRfind text pbPat start (start + cs) with _ | p
      · unfold adjustEnd
        rw [hpb]
      · have hrej := rfind_occ_none h0 hw hnpb hpb
        have hadj : adjustEnd text cs start (start + cs)
            = if start + ((cs / 2 : Nat) : Int) < (p : Int) then (p : Int)
              else sentenceAdjust text cs start (start + cs) := by
          unfold adjustEnd
          rw [hpb]
        rw [hadj, if_neg hrej]
    exact ⟨q, by rw [hce, hpbe, hsent], hocc, hmax⟩
  · intro hnpb hnsb hex
    obtain ⟨q, hq, hocc, hmax⟩ := rfind_occ_some h0 hw hex
    have hsp : spaceAdjust text cs start (start + cs) = (q : Int) := by
      have hs : spaceAdjust text cs start (start + cs)
          = if start + ((cs / 2 : Nat) : Int) < (q : Int) then (q : Int)
            else start + (cs : Int) := by
        unfold spaceAdjust
        rw [hq]
      rw [hs, if_pos hocc.2.1]
    have hsent : sentenceAdjust text cs start (start + cs)
        = spaceAdjust text cs start (start + cs) := by
      rcases hsb : pyRfind text sbPat start (start + cs) with _ | p
      · unfold sentenceAdjust
        rw [hsb]
      · have hrej := rfind_occ_none h0 hw hnsb hsb
        have hs : sentenceAdjust text cs start (start + cs)
            = if start + ((cs / 2 : Nat) : Int) < (p : Int) then (p : Int) + 1
              else spaceAdjust text cs start (start + cs) := by
          unfold sentenceAdjust
          rw [hsb]
        rw [hs, if_neg hrej]
    have hpbe : adjustEnd text cs start (start + cs)
        = sentenceAdjust text cs start (start + cs) := by
      rcases hpb : pyRfind text pbPat start (start + cs) with _ | p
      · unfold adjustEnd
        rw [hpb]
      · have hrej := rfind_occ_none h0 hw hnpb hpb
        have hadj : adjustEnd text cs start (start + cs)
            = if start + ((cs / 2 : Nat) : Int) < (p : Int) then (p : Int)
              else sentenceAdjust text cs start (start + cs) := by
          unfold adjustEnd
          rw [hpb]
        rw [hadj, if_neg hrej]
    exact ⟨q, by rw [hce, hpbe, hsent, hsp], hocc, hmax⟩

/-- Witness for claim C4: on `ab cd e\n\nf ghij` with chunk_size 9 the
window `[0, 9)` has its paragraph break at index 7 past the midpoint 4 and
a space break at index 5; the boundary lands exactly at the paragraph
break. -/
theorem boundary_priority_witness :
    chunkEnd boundaryText 9 0 = (7 : Int) ∧ occWin boundaryText pbPat 9 0 7 := by
  obtain ⟨q, h1, h2, h3⟩ :=
    (boundary_priority boundaryText 9 0 (by decide) (by decide)).1 ⟨7, by decide⟩
  have hval : chunkEnd boundaryText 9 0 = (7 : Int) := by decide
  have hq : q = 7 := by
    rw [hval] at h1
    omega
  rw [hq] at h2
  exact ⟨hval, h2⟩

/-!
Claims about content addressing, image rewriting and text decoding.
-/

theorem enum_map_id_eq_range {α : Type} (l : List α) (g : Nat → String)
    (f : Nat × α → ChunkDoc) (hf : ∀ ic, (f ic).id = g ic.1) :
    (l.enum.map f).map ChunkDoc.id = (List.range l.length).map g := by
  rw [List.map_map]
  have hcomp : ChunkDoc.id ∘ f = g ∘ Prod.fst := funext fun ic => hf ic
  rw [hcomp, ← List.map_map, List.enum_map_fst]

/-- Claim C1, confirmed: the identifiers of the records built by
process_file are content-addressed and deterministic — each record id is
exactly `calculate_file_hash(bytes) + "_chunk_" + i` (a function of the raw
file bytes and the chunk position only), and a second run over the same
bytes from a different path, file name or extension yields exactly the same
identifier list. -/
theorem chunk_ids_content_addressed (p₁ n₁ t₁ p₂ n₂ t₂ : String) (bytes : List Nat)
    (cs co : Nat) (docs : List ChunkDoc)
    (h : process_file p₁ n₁ t₁ bytes cs co = some docs) :
    docs.map ChunkDoc.id
        = (List.range docs.length).map
            (fun i => calculate_file_hash bytes ++ "_chunk_" ++ Nat.repr i)
      ∧ (process_file p₂ n₂ t₂ bytes cs co).map (List.map ChunkDoc.id)
          = some (docs.map ChunkDoc.id) := by
  simp only [process_file] at h ⊢
  split at h
  · rename_i hempty
    obtain rfl : [] = docs := Option.some.inj h
    rw [if_pos hempty]
    constructor
    · simp
    · simp
  · rename_i hempty
    rw [if_neg hempty]
    rw [Option.map_eq_some'] at h
    obtain ⟨chunks, hc, hF⟩ := h
    subst hF
    constructor
    · rw [List.length_map, List.enum_length]
      exact enum_map_id_eq_range chunks _ _ (fun ic => rfl)
    · rw [hc]
      simp only [Option.map_some', Option.some.injEq]
      rw [List.map_map, List.map_map]
      rfl

/-- Witness for claim C1 on the two-byte file `hi`: the single chunk record
has identifier `sha256("hi") + "_chunk_0"` and a re-run from another path
reproduces the identifier list. -/
theorem chunk_ids_content_addressed_witness :
    c1docs.map ChunkDoc.id
        = (List.range c1docs.length).map
            (fun i => calculate_file_hash [104, 105] ++ "_chunk_" ++ Nat.repr i)
      ∧ (process_file "q" "m" ".md" [104, 105] 10 0).map (List.map ChunkDoc.id)
          = some (c1docs.map ChunkDoc.id) :=
  chunk_ids_content_addressed "p" "n" ".txt" "q" "m" ".md" [104, 105] 10 0 c1docs rfl

/-- Claim C9 (code_bug), evaluated at the failing input
`See ![[photo.png]] here`: `process_images` on its own rewrites the embedded
image to the placeholder `[Image: photo.png]` exactly as its docstring and
the spec state, but in the fixed pipeline order (frontmatter, tags, links,
images) `process_wikilinks` runs first and its `[[...]]` pattern consumes
the image syntax, so the pipeline emits `See !photo.png here` and the
placeholder is never produced. -/
theorem image_rewrite_bug :
    process_images "See ![[photo.png]] here".toList = "See [Image: photo.png] here".toList
      ∧ obsProcessContent "vault" "See ![[photo.png]] here".toList
          = "See !photo.png here".toList
      ∧ obsProcessContent "vault" "See ![[photo.png]] here".toList
          ≠ "See [Image: photo.png] here".toList := by
  exact ⟨by decide, by decide, by decide⟩

/-- Claim C10, confirmed: for every byte sequence, the encoding-fallback
loop of extract_text_from_file succeeds on `utf-8` or already on `latin-1`
(which decodes every byte sequence), so the `Could not decode` branch
(modelled by `none`) is unreachable for plain-text extensions. -/
theorem encoding_fallback_total (bytes : List Nat) (h : ∀ b ∈ bytes, b < 256) :
    ∃ t, extract_text_plain bytes = some t ∧
      (utf8Decode bytes = some t ∨ latin1Decode bytes = some t) := by
  rcases hu : utf8Decode bytes with _ | t
  · have hl : latin1Decode bytes = some (bytes.map Char.ofNat) := by
      unfold latin1Decode
      rw [if_pos]
      simp only [List.all_eq_true, decide_eq_true_eq]
      intro b hb
      exact h b hb
    refine ⟨bytes.map Char.ofNat, ?_, Or.inr hl⟩
    unfold extract_text_plain
    rw [hu, hl]
  · refine ⟨t, ?_, Or.inl rfl⟩
    unfold extract_text_plain
    rw [hu]

/-- Witness for claim C10 on the bytes `[255, 254]`, which are not valid
UTF-8: extraction still succeeds (via latin-1). -/
theorem encoding_fallback_total_witness :
    (extract_text_plain [255, 254]).isSome = true := by
  obtain ⟨t, h1, -⟩ := encoding_fallback_total [255, 254] (by decide)
  rw [h1]
  rfl

/-!
Claims about the vector-store adaptation layer.
-/

/-- Claim C6, counterexample: on a backend where creating the proxy
collection for the FIRST query vector raises while every call for the second
vector would succeed, MarqoClient.search on two query vectors returns None —
no per-query result list with an empty entry substituted for the failed
query is produced, although processing the second vector on its own
succeeds. -/
theorem search_isolation_cex :
    (msearch c6backend "c" [[0], [0]] none tmpNames).1 = none ∧
      (processVector c6backend "c" (tmpNames 1) none).1
        = .ok ⟨["doc1"], [0], ["hello"], [[]]⟩ := by
  exact ⟨by decide, by decide⟩

/-- Claim C6, amended: a failure while processing any query vector ABORTS
the whole call: the exception propagates to the outer handler, the call
returns None, and the remaining vectors are never processed (the backend
trace of the whole call is exactly the failing vector's trace, which still
ends with its proxy cleanup). -/
theorem search_failure_aborts_all (b : Backend) (col : String) (limit : Option Nat)
    (tmpName : Nat → String) (v : List Int) (vs : List (List Int)) (e : String)
    (h : (processVector b col (tmpName 0) limit).1 = .error e) :
    (msearch b col (v :: vs) limit tmpName).1 = none ∧
      (msearch b col (v :: vs) limit tmpName).2
        = (processVector b col (tmpName 0) limit).2 := by
  have hl : searchLoop b col limit tmpName 0 (v :: vs)
      = (.error e, (processVector b col (tmpName 0) limit).2) := by
    simp only [searchLoop]
    rw [h]
  constructor
  · simp only [msearch, hl]
  · simp only [msearch, hl]

/-- Witness for the amended claim C6 at the concrete failing backend. -/
theorem search_failure_aborts_all_witness :
    (msearch c6backend "c" [[0]] none tmpNames).1 = none ∧
      (msearch c6backend "c" [[0]] none tmpNames).2
        = (processVector c6backend "c" (tmpNames 0) none).2 :=
  search_failure_aborts_all c6backend "c" none tmpNames [0] [] "create failed" (by rfl)

theorem searchLoop_deleteIndex {b : Backend} {d : String → Except String Unit}
    {col : String} {limit : Option Nat} {tmpName : Nat → String} :
    ∀ (vs : List (List Int)) (k : Nat),
      (searchLoop { b with deleteIndex := d } col limit tmpName k vs).1
        = (searchLoop b col limit tmpName k vs).1 := by
  intro vs
  induction vs with
  | nil => intro k; rfl
  | cons v vs ih =>
    intro k
    simp only [searchLoop]
    have hpv : (processVector { b with deleteIndex := d } col (tmpName k) limit).1
        = (processVector b col (tmpName k) limit).1 := rfl
    rw [hpv, ih]
    rcases (processVector b col (tmpName k) limit).1 with e | q
    · rfl
    · rcases (searchLoop b col limit tmpName (k + 1) vs).1 with e | qs <;> rfl

/-- Claim C7, confirmed: for every query vector processed by
MarqoClient.search, the trace of the per-vector processing always contains
the deletion of its transient proxy collection (whatever the outcome of the
create/add/search steps, including exceptions), and the result of that
deletion never influences anything: replacing the backend deleteIndex
behaviour by an arbitrary one (for instance, always raising) changes neither
the per-vector outcome nor the result of the whole search call. -/
theorem proxy_cleanup_always (b : Backend) (d : String → Except String Unit)
    (col tmp : String) (limit : Option Nat) (vs : List (List Int))
    (tmpName : Nat → String) :
    (MEvent.delete tmp (b.deleteIndex tmp)) ∈ (processVector b col tmp limit).2 ∧
      (processVector { b with deleteIndex := d } col tmp limit).1
        = (processVector b col tmp limit).1 ∧
      (msearch { b with deleteIndex := d } col vs limit tmpName).1
        = (msearch b col vs limit tmpName).1 := by
  refine ⟨?_, rfl, ?_⟩
  · simp [processVector]
  · cases vs with
    | nil => rfl
    | cons v vs =>
      simp only [msearch]
      rw [searchLoop_deleteIndex]
      rcases (searchLoop b col limit tmpName 0 (v :: vs)).1 with e | qs <;> rfl

/-- Claim C8, counterexample: MarqoLoader.search is a read operation against
the vector store, yet on a backend whose search call raises it re-raises the
failure instead of returning a no-result value. -/
theorem read_ops_raise_cex :
    loader_search c8backend "c" "q" 10 none = .error "boom" ∧
      loader_search c8backend "c" "q" 10 none ≠ .ok [] := by
  exact ⟨rfl, by decide⟩

/-- Claim C8, amended: the read operations of MarqoClient (has_collection,
search, query, get) catch every backend failure and degrade to false / None,
and the write operations (insert, delete) propagate backend failures — but
MarqoLoader.search, also a read operation, re-raises backend failures like a
write. -/
theorem read_write_error_semantics :
    (∀ (b : Backend) (n e : String), b.getStats n = .error e →
      has_collection b n = false)
    ∧ (∀ (b : Backend) (col : String) (vs : List (List Int)) (limit : Option Nat)
        (tmpName : Nat → String) (e : String),
        (searchLoop b col limit tmpName 0 vs).1 = .error e →
          (msearch b col vs limit tmpName).1 = none)
    ∧ (∀ (b : Backend) (col : String) (f : List (String × String))
        (limit : Option Nat) (e : String),
        b.searchLexical col (some (toMarqoFilter f)) (limit.getD 10) = .error e →
          marqo_query b col f limit = none)
    ∧ (∀ (b : Backend) (col : String) (limit : Option Nat) (e : String),
        b.searchLexical col none (limit.getD 10) = .error e →
          marqo_get b col limit = none)
    ∧ (∀ (b : Backend) (col q : String) (limit : Nat)
        (flt : Option (List (String × String))) (e : String),
        b.searchText col q flt limit = .error e →
          loader_search b col q limit flt = .error e)
    ∧ (∀ (b : Backend) (col : String)
        (items : List (String × List (String × String) × Option String)) (e : String),
        b.addDocuments col (items.map itemToDoc) = .error e →
          marqo_insert b col items = .error e)
    ∧ (∀ (b : Backend) (col : String) (ids : List String) (e : String),
        b.deleteDocuments col ids = .error e → marqo_delete b col ids = .error e) := by
  refine ⟨?_, ?_, ?_, ?_, ?_, ?_, ?_⟩
  · intro b n e h
    unfold has_collection
    rw [h]
  · intro b col vs limit tmpName e h
    cases vs with
    | nil => cases h
    | cons v vs =>
      simp only [msearch]
      rw [h]
  · intro b col f limit e h
    unfold marqo_query
    split
    · rfl
    · rw [h]
  · intro b col limit e h
    unfold marqo_get
    split
    · rfl
    · rw [h]
  · intro b col q limit flt e h
    unfold loader_search
    rw [h]
  · intro b col items e h
    exact h
  · intro b col ids e h
    exact h

/-- Witness for the amended claim C8 on the all-failing backend. -/
theorem read_write_error_semantics_witness :
    has_collection c8backend "c" = false
      ∧ (msearch c8backend "c" [[0]] none tmpNames).1 = none
      ∧ marqo_query c8backend "c" [("k", "v")] none = none
      ∧ marqo_get c8backend "c" none = none
      ∧ loader_search c8backend "c" "q" 10 none = .error "boom"
      ∧ marqo_insert c8backend "c" [("t", [], none)] = .error "boom"
      ∧ marqo_delete c8backend "c" ["i"] = .error "boom" := by
  refine ⟨?_, ?_, ?_, ?_, ?_, ?_, ?_⟩
  · exact read_write_error_semantics.1 c8backend "c" "boom" rfl
  · exact read_write_error_semantics.2.1 c8backend "c" [[0]] none tmpNames "boom" rfl
  · exact read_write_error_semantics.2.2.1 c8backend "c" [("k", "v")] none "boom" rfl
  · exact read_write_error_semantics.2.2.2.1 c8backend "c" none "boom" rfl
  · exact read_write_error_semantics.2.2.2.2.1 c8backend "c" "q" 10 none "boom" rfl
  · exact read_write_error_semantics.2.2.2.2.2.1 c8backend "c" [("t", [], none)] "boom" rfl
  · exact read_write_error_semantics.2.2.2.2.2.2 c8backend "c" ["i"] "boom" rfl
